import Mathlib

/-!
# Verification of the jskit-learn cross-validation and rule-learning helpers

Shallow embedding of `src/cross_validation.js` (`train_test_split`,
`cross_validation_split`, `cross_validate_score`) and of `calc.js`
(`getTransactions`, `assocationRuleLearning`, recovered from the jsdoc page).

JavaScript numbers are modelled as `ℚ` (exact arithmetic; the binary-float
rounding of the source never changes any quantity these claims depend on),
machine words of the random generator as `Nat` reduced `% 2^32`, and the
mutable working copies of datasets as explicit state threading.

The random generator used by the source is the external `random-js` library:
a Mersenne-Twister MT19937 engine (`Random.engines.mt19937().seed(s)`)
combined with the `Random.integer(min, max)` distribution.  Both are modelled
below word-for-word from that library's algorithm (standard MT19937 seeding,
in-place refresh in three phases, tempering; power-of-two ranges drawn by
bit-masking, other ranges by rejection sampling followed by a modulus).
-/

/-! ## MT19937 engine (random-js `Random.engines.mt19937()`) -/

/-- State of the MT19937 engine: 624 32-bit words plus the read index. -/
structure MTState where
  data : List Nat
  index : Nat

/-- Seeding recurrence `data[i] = (0x6c078965 * (prev ^ (prev >>> 30)) + i) mod 2^32`,
producing words `i, i+1, ...` (`count` of them) from `prev`. -/
def mtSeedAux : Nat → Nat → Nat → List Nat
  | 0, _, _ => []
  | c + 1, i, prev =>
    let next := (1812433253 * (prev ^^^ (prev >>> 30)) + i) % 4294967296
    next :: mtSeedAux c (i + 1) next

/-- `engine.seed(initial)`: fill the 624 words from the seed and set the index
past the end so that the first draw triggers a refresh. -/
def mtSeed (seed : Nat) : MTState :=
  let s0 := seed % 4294967296
  { data := s0 :: mtSeedAux 623 1 s0, index := 624 }

/-- One word of the refresh recurrence: `y` is the top bit of `cur` joined with
the low 31 bits of `next`; the new word is `far ^ (y >>> 1) ^ (y odd ? 0x9908b0df : 0)`. -/
def mtF (cur next far : Nat) : Nat :=
  let y := (cur &&& 2147483648) ||| (next &&& 2147483647)
  far ^^^ (y >>> 1) ^^^ (if y % 2 = 1 then 2567483615 else 0)

/-- Pointwise combination of three word streams (length of the shortest). -/
def zip3With (f : Nat → Nat → Nat → Nat) : List Nat → List Nat → List Nat → List Nat
  | a :: as, b :: bs, c :: cs => f a b c :: zip3With f as bs cs
  | _, _, _ => []

/-- The in-place MT19937 refresh, staged exactly as random-js stages it:
words `0..226` read only old words (`k`, `k+1`, `k+397`); words `227..453`
read the words refreshed in the first phase (`k-227`); words `454..622` read
words refreshed in the second phase; word `623` wraps around to the already
refreshed words `0` and `396`. -/
def mtRefresh (data : List Nat) : List Nat :=
  let p1 := zip3With mtF (data.take 227) (data.drop 1) (data.drop 397)
  let p2a := zip3With mtF (data.drop 227) (data.drop 228) p1
  let p2b := zip3With mtF (data.drop 454) (data.drop 455) (p2a.drop 227)
  let last := mtF (data.getD 623 0) (p1.getD 0 0) (p2a.getD 169 0)
  p1 ++ p2a ++ p2b ++ [last]

/-- MT19937 tempering of one raw word. -/
def mtTemper (y0 : Nat) : Nat :=
  let y1 := y0 ^^^ (y0 >>> 11)
  let y2 := y1 ^^^ ((y1 <<< 7) &&& 2636928640)
  let y3 := y2 ^^^ ((y2 <<< 15) &&& 4022730752)
  y3 ^^^ (y3 >>> 18)

/-- `engine()`: refresh when the index runs past 624, then emit the tempered
word at the index (as an unsigned 32-bit value, matching `engine() >>> 0`). -/
def mtNext (s : MTState) : Nat × MTState :=
  let data := if s.index ≥ 624 then mtRefresh s.data else s.data
  let idx := if s.index ≥ 624 then 0 else s.index
  (mtTemper (data.getD idx 0), { data := data, index := idx + 1 })

/-! ## random-js `Random.integer(0, n-1)` -/

/-- Rejection loop of random-js `downscaleToLoopCheckedRange`: draw a uint32,
retry while it is `≥ maximum`, then reduce it `% n`.  The retry probability is
below `n / 2^32`, so the fuel is never exhausted in practice; on exhaustion the
last draw is accepted (still reduced `% n`). -/
def randBelowLoop (n maximum : Nat) : Nat → MTState → Nat × MTState
  | 0, s =>
    let r := mtNext s
    (r.1 % n, r.2)
  | f + 1, s =>
    let r := mtNext s
    if r.1 ≥ maximum then randBelowLoop n maximum f r.2 else (r.1 % n, r.2)

/-- random-js `isPowerOfTwoMinusOne`. -/
def isPowTwoMinusOne (r : Nat) : Bool := (r + 1) &&& r == 0

/-- `Random.integer(0, n - 1)(engine)` of random-js: a constant `0` without
consuming the engine when the range `n - 1` is not positive, a single masked
draw when `n` is a power of two, otherwise rejection sampling below
`maximum = n * ⌊2^32 / n⌋` followed by `% n`. -/
def randBelow (n : Nat) (s : MTState) : Nat × MTState :=
  if n ≤ 1 then (0, s)
  else if isPowTwoMinusOne (n - 1) then
    let r := mtNext s
    (r.1 &&& (n - 1), r.2)
  else
    randBelowLoop n (n * (4294967296 / n)) 100 s

/-! ## Sampling without replacement (`dataset_copy.splice(index, 1)[0]`) -/

/-- `pool.splice(i, 1)`: the removed element and the remaining list.
`none` when `i` is out of range (never reached: the drawn index is below the
pool length). -/
def spliceAt (pool : List α) (i : Nat) : Option (α × List α) :=
  match pool.drop i with
  | [] => none
  | x :: rest => some (x, pool.take i ++ rest)

/-- The sampling loop shared by the splitter and the folder: `k` times, draw a
uniform index over the current pool bounds, remove that element and append it
to the accumulator.  The source loop would push `undefined` if the pool were
exhausted; the draw counts reachable from the modelled option sets never
exhaust the pool, so the loop is modelled as stopping there. -/
def sampleLoop : Nat → MTState → List α → List α → List α × List α × MTState
  | 0, e, pool, acc => (acc, pool, e)
  | _ + 1, e, [], acc => (acc, [], e)
  | k + 1, e, p :: ps, acc =>
    match spliceAt (p :: ps) (randBelow (p :: ps).length e).1 with
    | none => (acc, p :: ps, (randBelow (p :: ps).length e).2)
    | some (x, rest) => sampleLoop k (randBelow (p :: ps).length e).2 rest (acc ++ [x])

/-! ## `train_test_split` -/

/-- Options bag of `train_test_split`.  `none` models an absent field; a
present `0` is falsy in the source's `||` / ternary tests, which the
truthiness helpers below reproduce. -/
structure TTSOptions where
  test_size : Option ℚ := none
  train_size : Option ℚ := none
  random_state : Nat := 0
  return_array : Bool := false
  parse_int_train_size : Bool := true

/-- `{train, test}` result (the `return_array` flag only changes the JS
packaging of the same two lists). -/
structure TTSResult (α : Type) where
  train : List α
  test : List α

/-- JS truthiness of an optional number: absent, `0` (and `NaN`, which has no
rational counterpart) are falsy. -/
def jsTruthyQ : Option ℚ → Option ℚ
  | some q => if q = 0 then none else some q
  | none => none

/-- `parseInt(x, 10)` on a number: truncation toward zero. -/
def jsParseInt (q : ℚ) : Int := if q < 0 then ⌈q⌉ else ⌊q⌋

/-- The number of iterations of `while (training_set.length < train_size)`:
the train count is `train_size * n` (or `(1 - test_size) * n`), truncated by
`parseInt` unless `parse_int_train_size` is false; the loop adds one element
per iteration, so it runs `⌈train_size⌉` times (clamped at zero). -/
def ttsNumDraws (n : Nat) (options : TTSOptions) : Nat :=
  let train_size_length : ℚ :=
    match jsTruthyQ options.train_size with
    | some ts => ts * (n : ℚ)
    | none => (1 - (match jsTruthyQ options.test_size with
                    | some t => t
                    | none => 1 / 5)) * (n : ℚ)
  let train_size : ℚ :=
    if options.parse_int_train_size then (jsParseInt train_size_length : ℚ)
    else train_size_length
  (⌈train_size⌉).toNat

/-- `train_test_split(dataset, options)`: seed an engine from `random_state`,
compute the train count from the options, then repeatedly splice a uniformly
drawn element out of a copy of the dataset into the training set; whatever
remains is the test set. -/
def train_test_split (dataset : List α) (options : TTSOptions) : TTSResult α :=
  let engine := mtSeed options.random_state
  let r := sampleLoop (ttsNumDraws dataset.length options) engine dataset []
  { train := r.1, test := r.2.1 }

/-! ## `cross_validation_split` -/

/-- Options bag of `cross_validation_split`. -/
structure CVSOptions where
  folds : Int := 3
  random_state : Nat := 0

/-- `x || d` on an integer: `0` is falsy. -/
def jsTruthyInt (i d : Int) : Int := if i = 0 then d else i

/-- The `for (let i in range(folds))` loop body: build `iters` folds, each by
drawing `foldsize` elements from the shared shrinking pool with the shared
engine.  Returns the folds together with the final pool and engine. -/
def buildFolds : Nat → Nat → MTState → List α → List (List α) × List α × MTState
  | 0, _, e, pool => ([], pool, e)
  | i + 1, fs, e, pool =>
    let s := sampleLoop fs e pool []
    let rest := buildFolds i fs s.2.2 s.2.1
    (s.1 :: rest.1, rest.2.1, rest.2.2)

/-- `foldsize = parseInt(dataset.length / folds, 10)`: a negative quotient
(negative `folds`) truncates to a non-positive integer, so
`while (fold.length < foldsize)` runs zero iterations (`toNat` clamp). -/
def cvsFoldsize (n : Nat) (folds : Int) : Nat :=
  (jsParseInt ((n : ℚ) / (folds : ℚ))).toNat

/-- `cross_validation_split(dataset, options)` (k-folds): a falsy `folds`
option falls back to 3; `lodash.range(folds)` has `|folds|` entries (it counts
downward for a negative argument), bounding the `for..in` loop. -/
def cross_validation_split (dataset : List α) (options : CVSOptions) : List (List α) :=
  let engine := mtSeed options.random_state
  let folds : Int := jsTruthyInt options.folds 3
  (buildFolds folds.natAbs (cvsFoldsize dataset.length folds) engine dataset).1


/-! ## `cross_validate_score`

The column-selection, matrix and confusion-matrix collaborators
(`DataSet#columnMatrix`, `ml.Matrix`, `util.pivotVector`,
`ml.ConfusionMatrix`) live outside `src/cross_validation.js`; following the
spec they are opaque collaborators, modelled as function parameters. -/

/-- Modelled from the spec: the opaque numeric collaborators consumed by the
cross-validator — a column-selection collaborator returning a 2D matrix for a
list of feature-name groups, the matrix wrapper (`new Matrix(x)`), the
ground-truth vector extraction (`util.pivotVector(m)[0]`), and the
confusion-matrix accuracy metric over actual/predicted label sequences. -/
structure MLCollaborators (α β γ : Type) where
  columnMatrix : List α → List (List String) → β
  matrixWrap : β → β
  pivotVectorHead : β → List γ
  confusionAccuracy : List γ → List γ → ℚ

/-- Options bag of `cross_validate_score`, with the duck-typed classifier
modelled as an explicit state type `σ` with `train`/`predict` capabilities
(`train` mutates the classifier, returning its new state). -/
structure CVScoreOptions (α β γ σ : Type) where
  classifierTrain : σ → β → β → σ
  classifierPredict : σ → β → List γ
  classifierInit : σ
  regression : Bool := false
  dataset : List α := []
  testingset : List α := []
  dependentFeatures : List (List String) := [["X"]]
  independentFeatures : List (List String) := [["Y"]]
  random_state : Nat := 0
  folds : Int := 10
  use_train_x_matrix : Bool := true
  use_train_y_matrix : Bool := false

/-- The `folds.map(fold => ...)` callback of `cross_validate_score`, threading
the classifier state left to right.  The `if (regression) {}` branch is empty
in the source: the callback then produces `undefined` (here `none`) and the
classifier is neither trained nor queried. -/
def cvsFoldScores (C : MLCollaborators α β γ) (cfg : CVScoreOptions α β γ σ)
    (x_test : β) (actuals : List γ) : σ → List (List α) → List (Option ℚ)
  | _, [] => []
  | s, fold :: rest =>
    let x_train := C.columnMatrix fold cfg.dependentFeatures
    let y_train := C.columnMatrix fold cfg.independentFeatures
    let x_train_matrix := if cfg.use_train_x_matrix then C.matrixWrap x_train else x_train
    let y_train_matrix := if cfg.use_train_y_matrix then C.matrixWrap y_train else y_train
    if cfg.regression then
      none :: cvsFoldScores C cfg x_test actuals s rest
    else
      let s' := cfg.classifierTrain s x_train_matrix y_train_matrix
      let estimates := cfg.classifierPredict s' x_test
      some (C.confusionAccuracy actuals estimates) :: cvsFoldScores C cfg x_test actuals s' rest

/-- `cross_validate_score(options)`: fold the training pool with the Folder,
build the fixed test matrices once from `testingset`, then map the per-fold
train/predict/score callback over the folds. -/
def cross_validate_score (C : MLCollaborators α β γ) (cfg : CVScoreOptions α β γ σ) :
    List (Option ℚ) :=
  let folds := cross_validation_split cfg.dataset
    { folds := cfg.folds, random_state := cfg.random_state }
  let y_test_matrix := C.columnMatrix cfg.testingset cfg.independentFeatures
  let x_test_matrix := C.columnMatrix cfg.testingset cfg.dependentFeatures
  let actuals := C.pivotVectorHead y_test_matrix
  cvsFoldScores C cfg x_test_matrix actuals cfg.classifierInit folds

/-! ## `calc.js`: transaction encoding

Rows are modelled as their `Object.values(csvRow)` list of string cells; the
JS `Map` is modelled as an association list whose `set` overwrites in place
(preserving insertion position) and whose `get` returns the stored value. -/

/-- `Map#get`. -/
def mapGet (m : List (String × String)) (k : String) : Option String :=
  match m with
  | [] => none
  | p :: rest => if p.1 = k then some p.2 else mapGet rest k

/-- `Map#has`-style key test used to model `set` on an existing key. -/
def mapHasKey (m : List (String × String)) (k : String) : Bool :=
  match m with
  | [] => false
  | p :: rest => if p.1 = k then true else mapHasKey rest k

/-- `Map#set`: overwrite in insertion position, or append a fresh pair. -/
def mapSet (m : List (String × String)) (k v : String) : List (String × String) :=
  if mapHasKey m k then m.map (fun p => if p.1 = k then (k, v) else p)
  else m ++ [(k, v)]

/-- JS truthiness of `valuesMap.get(val)`: `undefined` and the empty string
are falsy. -/
def mapGetTruthy (m : List (String × String)) (k : String) : Bool :=
  match mapGet m k with
  | none => false
  | some s => !(s = "")

/-- Decimal digits of `n`, least significant first, with structural fuel
(`fuel ≥ n` suffices). -/
def digitsAux : Nat → Nat → List Nat
  | _, 0 => []
  | 0, _ + 1 => []
  | f + 1, n + 1 => ((n + 1) % 10) :: digitsAux f ((n + 1) / 10)

/-- Character of one decimal digit. -/
def digitChar (d : Nat) : Char := Char.ofNat (48 + d)

/-- `index.toString()` for a natural number: its decimal representation. -/
def natToken (n : Nat) : String :=
  if n = 0 then "0" else ⟨((digitsAux n n).map digitChar).reverse⟩

/-- `Set#add` over an insertion-ordered list. -/
def insertValue (vs : List String) (v : String) : List String :=
  if v ∈ vs then vs else vs ++ [v]

/-- The `values.forEach` body: a value whose lookup is falsy gets the token
`String(parseInt(valuesMap.size / 2))` — both directions are `set`, value to
token first.  (The `size < 0` guard of the source is dead: a size is never
negative.) -/
def assignToken (m : List (String × String)) (val : String) : List (String × String) :=
  if mapGetTruthy m val then m
  else mapSet (mapSet m val (natToken (m.length / 2))) (natToken (m.length / 2)) val

/-- The `data.map(csvRow => ...)` traversal: per row, add the row's cells to
the insertion-ordered value set, run the token-assignment pass over the whole
accumulated set, then encode the row through the map as it stands after that
row (dropping cells whose lookup is `undefined`).  Returns the final value
set, the final map, and the per-row transactions. -/
def getTransactionsAux :
    List (List String) → List String → List (String × String) →
    List String × List (String × String) × List (List String)
  | [], values, vmap => (values, vmap, [])
  | row :: rest, values, vmap =>
    let values' := row.foldl insertValue values
    let vmap' := values'.foldl assignToken vmap
    let t := row.filterMap (fun cell => mapGet vmap' cell)
    let r := getTransactionsAux rest values' vmap'
    (r.1, r.2.1, t :: r.2.2)

/-- Options bag of `getTransactions` (the source spells the flag
`exludeEmptyTranscations`). -/
structure GTOptions where
  exludeEmptyTranscations : Bool := true

/-- Result `{values, valuesMap, transactions}` of `getTransactions`. -/
structure GTResult where
  values : List String
  valuesMap : List (String × String)
  transactions : List (List String)

/-- `getTransactions(data, options)`: build the value set and token map row
by row, and (by default) drop rows that encoded to zero tokens. -/
def getTransactions (data : List (List String)) (options : GTOptions) : GTResult :=
  let r := getTransactionsAux data [] []
  { values := r.1
    valuesMap := r.2.1
    transactions :=
      if options.exludeEmptyTranscations then r.2.2.filter (fun row => !(row.length = 0))
      else r.2.2 }

/-! ## `calc.js`: association-rule summarization

The frequent-pattern miner (`node-fpgrowth`) is an external collaborator; its
output — a list of itemsets with their support counts — is a parameter.  The
`Promise` always settles exactly once; its resolution value is modelled as the
return value. -/

/-- One itemset as returned by the external miner: token list and support. -/
structure FPItemset where
  items : List String
  support : ℚ
deriving DecidableEq

/-- One record of the summarized output. -/
structure SummaryRecord where
  items_labels : List (Option String)
  items : List String
  support : ℚ
  support_percent : ℚ
deriving DecidableEq

/-- Options bag of `assocationRuleLearning`. -/
structure ARLOptions where
  support : ℚ := 2 / 5
  minLength : Nat := 2
  summary : Bool := true
  valuesMap : List (String × String) := []

/-- Resolution value of the `assocationRuleLearning` promise: either the
summarized records or the raw miner results. -/
inductive ARLResult where
  | summarized (records : List SummaryRecord)
  | raw (results : List FPItemset)
deriving DecidableEq

/-- The summarization pipeline of `assocationRuleLearning`: label each mined
itemset through `valuesMap`, attach `support / transactions.length`, keep only
itemsets with more than one item (the `minLength` option is accepted but never
consulted), and sort by descending raw support. -/
def arlSummary (transactions : List (List String))
    (options : ARLOptions) (results : List FPItemset) : List SummaryRecord :=
  let mapped : List SummaryRecord := results.map (fun itemset =>
    { items_labels := itemset.items.map (fun item => mapGet options.valuesMap item)
      items := itemset.items
      support := itemset.support
      support_percent := itemset.support / (transactions.length : ℚ) })
  let filtered := mapped.filter (fun itemset => itemset.items.length > 1)
  filtered.mergeSort (fun a b => decide (b.support ≤ a.support))

/-- `assocationRuleLearning(transactions, options)` applied to the miner's
`results`: with `summary` truthy, resolve the summarized records; otherwise
resolve the raw results. -/
def assocationRuleLearning (transactions : List (List String))
    (options : ARLOptions) (results : List FPItemset) : ARLResult :=
  if options.summary then .summarized (arlSummary transactions options results)
  else .raw results

/-! ## Helper definitions for the verification -/

/-- Value of a little-endian decimal digit list (used to invert `digitsAux`). -/
def ofDigits : List Nat → Nat
  | [] => 0
  | d :: ds => d + 10 * ofDigits ds

/-- The token map built from a list of fresh, token-free values starting at
index `i`: an interleaving of value-to-token and token-to-value pairs.  This
is the shape `getTransactions` maintains on collision-free inputs. -/
def cleanMap : List String → Nat → List (String × String)
  | [], _ => []
  | v :: vs, i => (v, natToken i) :: (natToken i, v) :: cleanMap vs (i + 1)

/-- The value set accumulated by `getTransactions` after a list of rows
(each row's cells inserted in order, first seen first). -/
def valuesAfter : List (List String) → List String → List String
  | [], vs => vs
  | row :: rest, vs => valuesAfter rest (row.foldl insertValue vs)

/-! ## Lemmas about the sampler -/

theorem randBelowLoop_lt (n maximum : Nat) (hn : 0 < n) :
    ∀ (f : Nat) (s : MTState), (randBelowLoop n maximum f s).1 < n := by
  intro f
  induction f with
  | zero => intro s; simpa [randBelowLoop] using Nat.mod_lt _ hn
  | succ f ih =>
    intro s
    simp only [randBelowLoop]
    split
    · exact ih _
    · simpa using Nat.mod_lt _ hn

/-- Every drawn index is within the current pool bounds. -/
theorem randBelow_lt (n : Nat) (s : MTState) (hn : 0 < n) : (randBelow n s).1 < n := by
  unfold randBelow
  split
  · simpa using hn
  · split
    · exact lt_of_le_of_lt Nat.and_le_right (by omega)
    · exact randBelowLoop_lt n _ hn _ s

theorem spliceAt_isSome (pool : List α) (i : Nat) (h : i < pool.length) :
    ∃ x rest, spliceAt pool i = some (x, rest) := by
  cases hd : pool.drop i with
  | nil =>
    exact absurd (List.drop_eq_nil_iff.mp hd) (by omega)
  | cons y ys =>
    exact ⟨y, pool.take i ++ ys, by simp [spliceAt, hd]⟩

/-- Splicing one element out of the pool permutes the pool into the element
and the remainder. -/
theorem spliceAt_perm {pool : List α} {i : Nat} {x : α} {rest : List α}
    (h : spliceAt pool i = some (x, rest)) : (x :: rest).Perm pool := by
  unfold spliceAt at h
  cases hd : pool.drop i with
  | nil => rw [hd] at h; exact absurd h (by simp)
  | cons y ys =>
    rw [hd] at h
    have hx : y = x ∧ pool.take i ++ ys = rest := by
      simpa using h
    obtain ⟨rfl, rfl⟩ := hx
    have hsplit : pool.take i ++ y :: ys = pool := by
      rw [← hd]; exact List.take_append_drop i pool
    conv_rhs => rw [← hsplit]
    exact List.perm_middle.symm

theorem spliceAt_length {pool : List α} {i : Nat} {x : α} {rest : List α}
    (h : spliceAt pool i = some (x, rest)) : rest.length + 1 = pool.length := by
  simpa using (spliceAt_perm h).length_eq

/-- Conservation: the elements accumulated by the sampling loop together with
the remaining pool are a permutation of the initial accumulator and pool. -/
theorem sampleLoop_perm :
    ∀ (k : Nat) (e : MTState) (pool acc : List α),
      ((sampleLoop k e pool acc).1 ++ (sampleLoop k e pool acc).2.1).Perm (acc ++ pool)
  | 0, e, pool, acc => by simp [sampleLoop]
  | _ + 1, e, [], acc => by simp [sampleLoop]
  | k + 1, e, p :: ps, acc => by
    have hlt : (randBelow (p :: ps).length e).1 < (p :: ps).length :=
      randBelow_lt _ _ (by simp)
    obtain ⟨x, rest, hs⟩ := spliceAt_isSome (p :: ps) _ hlt
    have hperm := spliceAt_perm hs
    simp only [sampleLoop, hs]
    have ih := sampleLoop_perm k (randBelow (p :: ps).length e).2 rest (acc ++ [x])
    refine ih.trans ?_
    have hshape : acc ++ [x] ++ rest = acc ++ (x :: rest) := by simp
    rw [hshape]
    exact hperm.append_left acc

/-- Sizing: with enough elements in the pool, the loop draws exactly `k`. -/
theorem sampleLoop_length :
    ∀ (k : Nat) (e : MTState) (pool acc : List α), k ≤ pool.length →
      (sampleLoop k e pool acc).1.length = acc.length + k ∧
      (sampleLoop k e pool acc).2.1.length = pool.length - k
  | 0, e, pool, acc, _ => by simp [sampleLoop]
  | k + 1, e, [], acc, h => by simp at h
  | k + 1, e, p :: ps, acc, h => by
    have hlt : (randBelow (p :: ps).length e).1 < (p :: ps).length :=
      randBelow_lt _ _ (by simp)
    obtain ⟨x, rest, hs⟩ := spliceAt_isSome (p :: ps) _ hlt
    have hrest : rest.length + 1 = (p :: ps).length := spliceAt_length hs
    simp only [sampleLoop, hs]
    have ih := sampleLoop_length k (randBelow (p :: ps).length e).2 rest (acc ++ [x])
      (by simp at hrest h ⊢; omega)
    simp at hrest ih ⊢
    omega

/-! ## Lemmas about the folder -/

theorem buildFolds_perm :
    ∀ (i fs : Nat) (e : MTState) (pool : List α),
      ((buildFolds i fs e pool).1.flatten ++ (buildFolds i fs e pool).2.1).Perm pool
  | 0, fs, e, pool => by simp [buildFolds]
  | i + 1, fs, e, pool => by
    simp only [buildFolds, List.flatten_cons]
    have hs := sampleLoop_perm fs e pool []
    simp only [List.nil_append] at hs
    have ih := buildFolds_perm i fs (sampleLoop fs e pool []).2.2 (sampleLoop fs e pool []).2.1
    rw [List.append_assoc]
    exact (ih.append_left _).trans hs

theorem buildFolds_lengths :
    ∀ (i fs : Nat) (e : MTState) (pool : List α), i * fs ≤ pool.length →
      (∀ f ∈ (buildFolds i fs e pool).1, f.length = fs) ∧
      (buildFolds i fs e pool).1.length = i ∧
      (buildFolds i fs e pool).2.1.length = pool.length - i * fs
  | 0, fs, e, pool, _ => by simp [buildFolds]
  | i + 1, fs, e, pool, h => by
    have hexp : (i + 1) * fs = i * fs + fs := by ring
    have hfs : fs ≤ pool.length := by omega
    have hsl := sampleLoop_length fs e pool [] hfs
    have ih := buildFolds_lengths i fs (sampleLoop fs e pool []).2.2 (sampleLoop fs e pool []).2.1
      (by rw [hsl.2]; omega)
    simp only [buildFolds]
    refine ⟨?_, ?_, ?_⟩
    · intro f hf
      rcases List.mem_cons.mp hf with rfl | hf
      · simpa using hsl.1
      · exact ih.1 f hf
    · simpa using ih.2.1
    · rw [ih.2.2, hsl.2]
      omega

theorem buildFolds_zero_foldsize :
    ∀ (i : Nat) (e : MTState) (pool : List α),
      buildFolds i 0 e pool = (List.replicate i [], pool, e)
  | 0, e, pool => by simp [buildFolds]
  | i + 1, e, pool => by
    simp [buildFolds, sampleLoop, buildFolds_zero_foldsize i e pool, List.replicate]

/-- For a positive fold count the fold size is the natural-number quotient. -/
theorem cvsFoldsize_of_pos (n : Nat) (k : Int) (hk : 1 ≤ k) :
    cvsFoldsize n k = n / k.toNat := by
  unfold cvsFoldsize jsParseInt
  have hkq : (0 : ℚ) < (k : ℚ) := by exact_mod_cast lt_of_lt_of_le zero_lt_one hk
  have hnonneg : ¬ ((n : ℚ) / (k : ℚ) < 0) := by
    push_neg
    exact div_nonneg (Nat.cast_nonneg n) hkq.le
  rw [if_neg hnonneg]
  have hcast : ((k : ℚ)) = ((k.toNat : ℕ) : ℚ) := by
    rw [← Int.toNat_of_nonneg (le_trans zero_le_one hk)]
    push_cast
    rw [Int.toNat_of_nonneg (le_trans zero_le_one hk)]
  rw [hcast]
  have hfl : ⌊((n : ℤ) : ℚ) / ((k.toNat : ℕ) : ℚ)⌋ = (n : ℤ) / ((k.toNat : ℕ) : ℤ) :=
    Rat.floor_intCast_div_natCast (n : ℤ) k.toNat
  push_cast at hfl
  rw [hfl]
  rw [← Int.ofNat_ediv]
  exact Int.toNat_ofNat _

/-- For a negative fold count the truncated fold size clamps to zero. -/
theorem cvsFoldsize_of_neg (n : Nat) (k : Int) (hk : k < 0) :
    cvsFoldsize n k = 0 := by
  unfold cvsFoldsize jsParseInt
  have hkq : (k : ℚ) < 0 := by exact_mod_cast hk
  have hq : (n : ℚ) / (k : ℚ) ≤ 0 :=
    div_nonpos_iff.mpr (Or.inl ⟨Nat.cast_nonneg n, hkq.le⟩)
  apply Int.toNat_of_nonpos
  split
  · exact Int.ceil_le.mpr (by simpa using hq)
  · calc ⌊(n : ℚ) / (k : ℚ)⌋ ≤ ⌊(0 : ℚ)⌋ := Int.floor_le_floor hq
      _ = 0 := Int.floor_zero

/-! ## Unfolding equations used to evaluate concrete instances -/

theorem tts_unfold (dataset : List α) (options : TTSOptions) :
    train_test_split dataset options =
      { train := (sampleLoop (ttsNumDraws dataset.length options)
          (mtSeed options.random_state) dataset []).1
        test := (sampleLoop (ttsNumDraws dataset.length options)
          (mtSeed options.random_state) dataset []).2.1 } := rfl

theorem cvs_unfold (dataset : List α) (options : CVSOptions) :
    cross_validation_split dataset options =
      (buildFolds (jsTruthyInt options.folds 3).natAbs
        (cvsFoldsize dataset.length (jsTruthyInt options.folds 3))
        (mtSeed options.random_state) dataset).1 := rfl

/-! ## Claim C1: `train_test_split` conserves the dataset -/

/-- C1.  For every dataset `D` and every seed `S`,
`train_test_split(D, {random_state: S})` returns a train list and a test list
with `train.length + test.length = D.length`, and the multiset union of the
two lists is the multiset of `D`: no row is lost or duplicated. -/
theorem claim_C1 (α : Type) (D : List α) (S : Nat) :
    (train_test_split D { random_state := S }).train.length +
      (train_test_split D { random_state := S }).test.length = D.length ∧
    ((train_test_split D { random_state := S }).train : Multiset α) +
      ((train_test_split D { random_state := S }).test : Multiset α) = (D : Multiset α) := by
  have hperm := sampleLoop_perm (ttsNumDraws D.length { random_state := S })
    (mtSeed (TTSOptions.random_state { random_state := S })) D []
  simp only [List.nil_append] at hperm
  rw [tts_unfold]
  constructor
  · have := hperm.length_eq
    simpa using this
  · have := hperm
    rw [← Multiset.coe_eq_coe, ← Multiset.coe_add] at this
    simpa using this

/-! ## Claim C2: determinism of the splitter and the folder -/

/-- C2.  Calling `train_test_split` twice with identical dataset and options,
or `cross_validation_split` twice with identical dataset and options, yields
identical output sequences (including element order): both functions are
deterministic in their inputs. -/
theorem claim_C2 (α : Type) (d d' : List α) (o o' : TTSOptions) (p p' : CVSOptions)
    (hd : d = d') (ho : o = o') (hp : p = p') :
    train_test_split d o = train_test_split d' o' ∧
    cross_validation_split d p = cross_validation_split d' p' := by
  subst hd; subst ho; subst hp
  exact ⟨rfl, rfl⟩

/-- Witness for C2 at a concrete dataset, seed and fold count. -/
theorem claim_C2_witness :
    train_test_split [3, 1, 4] ({ random_state := 7 } : TTSOptions) =
      train_test_split [3, 1, 4] ({ random_state := 7 } : TTSOptions) ∧
    cross_validation_split [3, 1, 4] ({ folds := 3, random_state := 7 } : CVSOptions) =
      cross_validation_split [3, 1, 4] ({ folds := 3, random_state := 7 } : CVSOptions) :=
  claim_C2 Nat [3, 1, 4] [3, 1, 4] { random_state := 7 } { random_state := 7 }
    { folds := 3, random_state := 7 } { folds := 3, random_state := 7 } rfl rfl rfl

/-! ## Claim C3: fold disjointness -/

/-- C3.  For every dataset `D` and fold count `k ≥ 1`, no element position of
`D` is assigned to two different folds: the concatenation of all folds is a
sub-multiset of `D`, so the folds use pairwise disjoint positions. -/
theorem claim_C3 (α : Type) (D : List α) (S : Nat) (k : Int) (hk : 1 ≤ k) :
    ((cross_validation_split D { folds := k, random_state := S }).flatten : Multiset α)
      ≤ (D : Multiset α) := by
  rw [cvs_unfold]
  have hperm := buildFolds_perm (jsTruthyInt k 3).natAbs
    (cvsFoldsize D.length (jsTruthyInt k 3)) (mtSeed S) D
  rw [← Multiset.coe_eq_coe, ← Multiset.coe_add] at hperm
  calc ((buildFolds (jsTruthyInt k 3).natAbs
        (cvsFoldsize D.length (jsTruthyInt k 3)) (mtSeed S) D).1.flatten : Multiset α)
      ≤ ((buildFolds (jsTruthyInt k 3).natAbs
          (cvsFoldsize D.length (jsTruthyInt k 3)) (mtSeed S) D).1.flatten : Multiset α) +
        ((buildFolds (jsTruthyInt k 3).natAbs
          (cvsFoldsize D.length (jsTruthyInt k 3)) (mtSeed S) D).2.1 : Multiset α) :=
        Multiset.le_add_right _ _
    _ = (D : Multiset α) := hperm

/-- Witness for C3: two folds over a five-element dataset. -/
theorem claim_C3_witness :
    ((cross_validation_split [10, 20, 30, 40, 50]
        ({ folds := 2, random_state := 0 } : CVSOptions)).flatten : Multiset Nat)
      ≤ ([10, 20, 30, 40, 50] : Multiset Nat) :=
  claim_C3 Nat [10, 20, 30, 40, 50] 0 2 (by decide)

/-- Evaluation helper: `cross_validation_split` at a literal options record,
with the fold size supplied as an equation. -/
theorem cvs_eval (dataset : List α) (k : Int) (S : Nat) (fs : Nat)
    (hfs : cvsFoldsize dataset.length (jsTruthyInt k 3) = fs) :
    cross_validation_split dataset { folds := k, random_state := S } =
      (buildFolds (jsTruthyInt k 3).natAbs fs (mtSeed S) dataset).1 := by
  show (buildFolds (jsTruthyInt k 3).natAbs
      (cvsFoldsize dataset.length (jsTruthyInt k 3)) (mtSeed S) dataset).1 = _
  rw [hfs]

/-- Evaluation helper: `train_test_split` with the draw count supplied as an
equation. -/
theorem tts_eval (dataset : List α) (options : TTSOptions) (m : Nat)
    (hm : ttsNumDraws dataset.length options = m) :
    train_test_split dataset options =
      { train := (sampleLoop m (mtSeed options.random_state) dataset []).1
        test := (sampleLoop m (mtSeed options.random_state) dataset []).2.1 } := by
  rw [tts_unfold, hm]

/-! ## Claim C4: fold sizing -/

/-- C4.  For every dataset of length `n` and fold count `k ≥ 1`: every fold of
`cross_validation_split` has length exactly `⌊n/k⌋`, the folds hold
`k * ⌊n/k⌋` items in total, and the remaining `n mod k` items of the input
appear in no fold (the multiset difference between the input and the fold
contents has exactly `n mod k` elements). -/
theorem claim_C4 (α : Type) (D : List α) (S : Nat) (k : Int) (hk : 1 ≤ k) :
    (∀ f ∈ cross_validation_split D ({ folds := k, random_state := S } : CVSOptions),
      f.length = D.length / k.toNat) ∧
    (cross_validation_split D ({ folds := k, random_state := S } : CVSOptions)).flatten.length
      = k.toNat * (D.length / k.toNat) ∧
    ∃ rest : List α, rest.length = D.length % k.toNat ∧
      ((cross_validation_split D ({ folds := k, random_state := S } : CVSOptions)).flatten
        ++ rest).Perm D := by
  have hk0 : jsTruthyInt k 3 = k := by unfold jsTruthyInt; rw [if_neg (by omega)]
  have hna : k.natAbs = k.toNat := by omega
  have hfs : cvsFoldsize D.length (jsTruthyInt k 3) = D.length / k.toNat := by
    rw [hk0]; exact cvsFoldsize_of_pos D.length k hk
  have hmul : k.toNat * (D.length / k.toNat) ≤ D.length := Nat.mul_div_le D.length k.toNat
  have hbl := buildFolds_lengths k.toNat (D.length / k.toNat) (mtSeed S) D hmul
  have hbp := buildFolds_perm k.toNat (D.length / k.toNat) (mtSeed S) D
  have hdm := Nat.div_add_mod D.length k.toNat
  rw [cvs_eval D k S _ hfs, hk0, hna]
  refine ⟨hbl.1, ?_, ?_⟩
  · have hlen := hbp.length_eq
    simp only [List.length_append] at hlen
    rw [hbl.2.2] at hlen
    omega
  · refine ⟨(buildFolds k.toNat (D.length / k.toNat) (mtSeed S) D).2.1, ?_, hbp⟩
    rw [hbl.2.2]
    omega

/-- Witness for C4: two folds over a five-element dataset (remainder 1). -/
theorem claim_C4_witness :
    (∀ f ∈ cross_validation_split [1, 2, 3, 4, 5]
        ({ folds := 2, random_state := 0 } : CVSOptions),
      f.length = ([1, 2, 3, 4, 5] : List Nat).length / (2 : Int).toNat) ∧
    (cross_validation_split [1, 2, 3, 4, 5]
        ({ folds := 2, random_state := 0 } : CVSOptions)).flatten.length
      = (2 : Int).toNat * (([1, 2, 3, 4, 5] : List Nat).length / (2 : Int).toNat) ∧
    ∃ rest : List Nat, rest.length = ([1, 2, 3, 4, 5] : List Nat).length % (2 : Int).toNat ∧
      ((cross_validation_split [1, 2, 3, 4, 5]
          ({ folds := 2, random_state := 0 } : CVSOptions)).flatten ++ rest).Perm [1, 2, 3, 4, 5] :=
  claim_C4 Nat [1, 2, 3, 4, 5] 0 2 (by decide)

/-! ## Claim C5: the documented fixture -/

set_option maxRecDepth 40000 in
/-- C5.  On the fixed input `[20,25,10,33,50,42,19,34,90,23]` with seed 0:
`cross_validation_split` with 2 folds returns exactly
`[[50,20,34,33,10],[23,90,42,19,25]]`, and `train_test_split` with
`test_size: 0.2` returns train `[50,20,34,33,10,23,90,42]` and test
`[25,19]` — the outputs documented in the source's own examples. -/
theorem claim_C5 :
    cross_validation_split [20, 25, 10, 33, 50, 42, 19, 34, 90, 23]
        ({ folds := 2, random_state := 0 } : CVSOptions)
      = [[50, 20, 34, 33, 10], [23, 90, 42, 19, 25]] ∧
    (train_test_split [20, 25, 10, 33, 50, 42, 19, 34, 90, 23]
        ({ test_size := some (1 / 5), random_state := 0 } : TTSOptions)).train
      = [50, 20, 34, 33, 10, 23, 90, 42] ∧
    (train_test_split [20, 25, 10, 33, 50, 42, 19, 34, 90, 23]
        ({ test_size := some (1 / 5), random_state := 0 } : TTSOptions)).test
      = [25, 19] := by
  have hfs : cvsFoldsize ([20, 25, 10, 33, 50, 42, 19, 34, 90, 23] : List Nat).length
      (jsTruthyInt 2 3) = 5 :=
    (cvsFoldsize_of_pos _ _ (by decide)).trans (by decide)
  have hm : ttsNumDraws ([20, 25, 10, 33, 50, 42, 19, 34, 90, 23] : List Nat).length
      ({ test_size := some (1 / 5), random_state := 0 } : TTSOptions) = 8 := by
    norm_num [ttsNumDraws, jsTruthyQ, jsParseInt]
    decide
  refine ⟨?_, ?_, ?_⟩
  · rw [cvs_eval _ 2 0 5 hfs]
    decide
  · rw [tts_eval _ _ 8 hm]
    decide
  · rw [tts_eval _ _ 8 hm]
    decide

/-! ## Claim C6: behaviour on `folds ≤ 0` -/

set_option maxRecDepth 40000 in
/-- Counterexample to C6 as stated.  `cross_validation_split` with `folds: 0`
does not raise any invalid-configuration failure: the call returns normally
and its result is identical to the result for the default `folds: 3` — the
fold count is silently replaced by the default. -/
theorem claim_C6_counterexample :
    cross_validation_split [1, 2, 3, 4, 5, 6] ({ folds := 0, random_state := 0 } : CVSOptions)
      = cross_validation_split [1, 2, 3, 4, 5, 6] ({ folds := 3, random_state := 0 } : CVSOptions) ∧
    (cross_validation_split [1, 2, 3, 4, 5, 6]
        ({ folds := 0, random_state := 0 } : CVSOptions)).length = 3 := by
  have hfs0 : cvsFoldsize ([1, 2, 3, 4, 5, 6] : List Nat).length (jsTruthyInt 0 3) = 2 :=
    (cvsFoldsize_of_pos _ _ (by decide)).trans (by decide)
  have hfs3 : cvsFoldsize ([1, 2, 3, 4, 5, 6] : List Nat).length (jsTruthyInt 3 3) = 2 :=
    (cvsFoldsize_of_pos _ _ (by decide)).trans (by decide)
  constructor
  · rw [cvs_eval _ 0 0 2 hfs0, cvs_eval _ 3 0 2 hfs3]
    decide
  · rw [cvs_eval _ 0 0 2 hfs0]
    decide

/-- C6 amended.  Calling `cross_validation_split` with `folds ≤ 0` raises no
failure: a `folds` of `0` is falsy and silently replaced by the default `3`,
and a negative `folds` yields `|folds|` empty folds. -/
theorem claim_C6_amended (α : Type) (D : List α) (S : Nat) (k : Int) (hk : k < 0) :
    cross_validation_split D ({ folds := k, random_state := S } : CVSOptions)
      = List.replicate k.natAbs ([] : List α) ∧
    cross_validation_split D ({ folds := 0, random_state := S } : CVSOptions)
      = cross_validation_split D ({ folds := 3, random_state := S } : CVSOptions) := by
  constructor
  · rw [cvs_eval D k S _ (rfl :
      cvsFoldsize D.length (jsTruthyInt k 3) = cvsFoldsize D.length (jsTruthyInt k 3))]
    have hk0 : jsTruthyInt k 3 = k := by unfold jsTruthyInt; rw [if_neg (by omega)]
    rw [hk0, cvsFoldsize_of_neg D.length k hk, buildFolds_zero_foldsize]
  · rw [cvs_eval D 0 S _ (rfl :
      cvsFoldsize D.length (jsTruthyInt 0 3) = cvsFoldsize D.length (jsTruthyInt 0 3))]
    rw [cvs_eval D 3 S _ (rfl :
      cvsFoldsize D.length (jsTruthyInt 3 3) = cvsFoldsize D.length (jsTruthyInt 3 3))]
    have h03 : jsTruthyInt 0 3 = jsTruthyInt 3 3 := by decide
    rw [h03]

/-- Witness for the amended C6 at `folds = -2`. -/
theorem claim_C6_amended_witness :
    cross_validation_split [7, 8, 9] ({ folds := -2, random_state := 0 } : CVSOptions)
      = List.replicate (Int.natAbs (-2)) ([] : List Nat) ∧
    cross_validation_split [7, 8, 9] ({ folds := 0, random_state := 0 } : CVSOptions)
      = cross_validation_split [7, 8, 9] ({ folds := 3, random_state := 0 } : CVSOptions) :=
  claim_C6_amended Nat [7, 8, 9] 0 (-2) (by decide)

/-! ## Claim C7: regression mode of the cross-validator -/

/-- Unfolding equation of `cross_validate_score`. -/
theorem cvscore_unfold (C : MLCollaborators α β γ) (cfg : CVScoreOptions α β γ σ) :
    cross_validate_score C cfg =
      cvsFoldScores C cfg (C.columnMatrix cfg.testingset cfg.dependentFeatures)
        (C.pivotVectorHead (C.columnMatrix cfg.testingset cfg.independentFeatures))
        cfg.classifierInit
        (cross_validation_split cfg.dataset
          { folds := cfg.folds, random_state := cfg.random_state }) := rfl

/-- With a truthy regression flag the per-fold callback yields one `undefined`
per fold and never touches the classifier. -/
theorem cvsFoldScores_regression (C : MLCollaborators α β γ) (cfg : CVScoreOptions α β γ σ)
    (x_test : β) (actuals : List γ) (hreg : cfg.regression = true) :
    ∀ (s : σ) (folds : List (List α)),
      cvsFoldScores C cfg x_test actuals s folds = List.replicate folds.length none
  | _, [] => by simp [cvsFoldScores]
  | s, fold :: rest => by
    simp only [cvsFoldScores, hreg, if_true, List.length_cons, List.replicate_succ]
    exact congrArg (none :: ·) (cvsFoldScores_regression C cfg x_test actuals hreg s rest)

set_option maxRecDepth 40000 in
/-- Counterexample to C7 as stated.  With a truthy `regression` flag,
`cross_validate_score` does not signal any "not supported" failure: the call
returns normally with an array of undefined entries, one per fold. -/
theorem claim_C7_counterexample :
    cross_validate_score
      ({ columnMatrix := fun _ _ => 0, matrixWrap := id,
         pivotVectorHead := fun _ => [], confusionAccuracy := fun _ _ => 0 } :
        MLCollaborators Nat Nat Nat)
      ({ classifierTrain := fun s _ _ => s, classifierPredict := fun _ _ => [],
         classifierInit := 0, regression := true, dataset := [1, 2, 3, 4, 5, 6],
         testingset := [1], folds := 3, random_state := 0 } :
        CVScoreOptions Nat Nat Nat Nat)
      = [none, none, none] := by
  have hfs : cvsFoldsize ([1, 2, 3, 4, 5, 6] : List Nat).length (jsTruthyInt 3 3) = 2 :=
    (cvsFoldsize_of_pos _ _ (by decide)).trans (by decide)
  rw [cvscore_unfold]
  dsimp only
  rw [cvs_eval _ 3 0 2 hfs]
  rw [cvsFoldScores_regression _ _ _ _ rfl]
  decide

/-- C7 amended.  For every configuration with a truthy regression flag,
`cross_validate_score` returns (without any failure) a list with one
`undefined` entry per fold produced by the Folder on its dataset. -/
theorem claim_C7_amended (α β γ σ : Type) (C : MLCollaborators α β γ)
    (cfg : CVScoreOptions α β γ σ) (hreg : cfg.regression = true) :
    cross_validate_score C cfg =
      List.replicate
        (cross_validation_split cfg.dataset
          { folds := cfg.folds, random_state := cfg.random_state }).length
        (none : Option ℚ) := by
  unfold cross_validate_score
  exact cvsFoldScores_regression C cfg _ _ hreg _ _

/-- Witness for the amended C7 at a two-fold regression configuration. -/
theorem claim_C7_amended_witness :
    cross_validate_score
      ({ columnMatrix := fun _ _ => 0, matrixWrap := id,
         pivotVectorHead := fun _ => [], confusionAccuracy := fun _ _ => 0 } :
        MLCollaborators Nat Nat Nat)
      ({ classifierTrain := fun s _ _ => s, classifierPredict := fun _ _ => [],
         classifierInit := 0, regression := true, dataset := [1, 2, 3, 4],
         testingset := [1], folds := 2, random_state := 0 } :
        CVScoreOptions Nat Nat Nat Nat)
      = List.replicate
          (cross_validation_split [1, 2, 3, 4]
            ({ folds := 2, random_state := 0 } : CVSOptions)).length
          (none : Option ℚ) :=
  claim_C7_amended Nat Nat Nat Nat _ _ rfl

/-! ## Claim C8: summary ordering and minimum itemset size -/

/-- C8.  For every transactions input, every option bag (whatever its
`minLength`) and every mining result: with `summary` true the resolved
summary is the `arlSummary` list, which is sorted non-increasing in raw
support and contains no record with fewer than two items. -/
theorem claim_C8 (transactions : List (List String)) (options : ARLOptions)
    (results : List FPItemset) (hsum : options.summary = true) :
    assocationRuleLearning transactions options results =
      .summarized (arlSummary transactions options results) ∧
    (arlSummary transactions options results).Pairwise
      (fun a b => b.support ≤ a.support) ∧
    ∀ r ∈ arlSummary transactions options results, 2 ≤ r.items.length := by
  refine ⟨by unfold assocationRuleLearning; rw [hsum]; simp, ?_, ?_⟩
  · have hp := @List.sorted_mergeSort SummaryRecord
      (fun a b => decide (b.support ≤ a.support))
      (fun a b c hab hbc => by
        simp only [decide_eq_true_eq] at hab hbc ⊢
        exact le_trans hbc hab)
      (fun a b => by
        simp only [Bool.or_eq_true, decide_eq_true_eq]
        exact le_total b.support a.support)
      (List.filter (fun itemset => itemset.items.length > 1)
        (results.map (fun itemset =>
          { items_labels := itemset.items.map (fun item => mapGet options.valuesMap item)
            items := itemset.items
            support := itemset.support
            support_percent := itemset.support / (transactions.length : ℚ) })))
    refine List.Pairwise.imp ?_ hp
    intro a b h
    simpa using h
  · intro r hr
    unfold arlSummary at hr
    rw [List.mem_mergeSort] at hr
    have := (List.mem_filter.mp hr).2
    simpa using this

/-- Witness for C8: a concrete mining result with a single-item set, an
out-of-order pair, and an ignored `minLength` of 5. -/
theorem claim_C8_witness :
    assocationRuleLearning [["0", "1"], ["0"], ["1"], ["0", "1"]]
        ({ minLength := 5, valuesMap := [("0", "A"), ("A", "0")] } : ARLOptions)
        [⟨["0"], 3⟩, ⟨["0", "1"], 2⟩, ⟨["1", "0"], 2⟩] =
      .summarized (arlSummary [["0", "1"], ["0"], ["1"], ["0", "1"]]
        ({ minLength := 5, valuesMap := [("0", "A"), ("A", "0")] } : ARLOptions)
        [⟨["0"], 3⟩, ⟨["0", "1"], 2⟩, ⟨["1", "0"], 2⟩]) ∧
    (arlSummary [["0", "1"], ["0"], ["1"], ["0", "1"]]
        ({ minLength := 5, valuesMap := [("0", "A"), ("A", "0")] } : ARLOptions)
        [⟨["0"], 3⟩, ⟨["0", "1"], 2⟩, ⟨["1", "0"], 2⟩]).Pairwise
      (fun a b => b.support ≤ a.support) ∧
    ∀ r ∈ arlSummary [["0", "1"], ["0"], ["1"], ["0", "1"]]
        ({ minLength := 5, valuesMap := [("0", "A"), ("A", "0")] } : ARLOptions)
        [⟨["0"], 3⟩, ⟨["0", "1"], 2⟩, ⟨["1", "0"], 2⟩], 2 ≤ r.items.length :=
  claim_C8 _ _ _ rfl

/-! ## Claim C10: retention of empty transactions -/

theorem getTransactionsAux_count :
    ∀ (data : List (List String)) (vs : List String) (m : List (String × String)),
      (getTransactionsAux data vs m).2.2.length = data.length
  | [], _, _ => rfl
  | row :: rest, vs, m => by
    simp only [getTransactionsAux]
    simpa using getTransactionsAux_count rest _ _

/-- C10.  With `excludeEmptyTransactions` false, rows that encode to zero
tokens are retained (one transaction per input row); with the flag true (the
default) exactly the empty encodings are dropped. -/
theorem claim_C10 (data : List (List String)) :
    (getTransactions data { exludeEmptyTranscations := false }).transactions.length
      = data.length ∧
    (getTransactions data { exludeEmptyTranscations := true }).transactions
      = (getTransactions data { exludeEmptyTranscations := false }).transactions.filter
          (fun row => !(row.length = 0)) := by
  constructor
  · show (getTransactionsAux data [] []).2.2.length = data.length
    exact getTransactionsAux_count data [] []
  · rfl

/-! ## Claim C9: lemmas about decimal tokens -/

theorem digitsAux_lt : ∀ (f n : Nat), ∀ d ∈ digitsAux f n, d < 10
  | _, 0 => by simp [digitsAux]
  | 0, _ + 1 => by simp [digitsAux]
  | f + 1, n + 1 => by
    intro d hd
    simp only [digitsAux, List.mem_cons] at hd
    rcases hd with rfl | hd
    · exact Nat.mod_lt _ (by omega)
    · exact digitsAux_lt f ((n + 1) / 10) d hd

theorem ofDigits_digitsAux : ∀ (f n : Nat), n ≤ f → ofDigits (digitsAux f n) = n
  | _, 0, _ => by simp [digitsAux, ofDigits]
  | 0, _ + 1, h => by omega
  | f + 1, n + 1, h => by
    have hdiv : (n + 1) / 10 ≤ f := by
      have := Nat.div_lt_self (Nat.succ_pos n) (by omega : 1 < 10)
      omega
    simp only [digitsAux, ofDigits]
    rw [ofDigits_digitsAux f ((n + 1) / 10) hdiv]
    exact Nat.mod_add_div (n + 1) 10

theorem digitChar_inj10 : ∀ d, d < 10 → ∀ e, e < 10 → digitChar d = digitChar e → d = e := by
  decide

theorem map_digitChar_inj :
    ∀ (l1 l2 : List Nat), (∀ d ∈ l1, d < 10) → (∀ d ∈ l2, d < 10) →
      l1.map digitChar = l2.map digitChar → l1 = l2
  | [], [], _, _, _ => rfl
  | [], _ :: _, _, _, h => by simp at h
  | _ :: _, [], _, _, h => by simp at h
  | a :: l1, b :: l2, h1, h2, h => by
    simp only [List.map_cons, List.cons.injEq] at h
    have ha := digitChar_inj10 a (h1 a (by simp)) b (h2 b (by simp)) h.1
    rw [ha, map_digitChar_inj l1 l2 (fun d hd => h1 d (by simp [hd]))
      (fun d hd => h2 d (by simp [hd])) h.2]

theorem natToken_pos_digits (n : Nat) (hn : 0 < n)
    (h : ((digitsAux n n).map digitChar).reverse = ['0']) : False := by
  have hrev : (digitsAux n n).map digitChar = ['0'] := by
    have := congrArg List.reverse h
    simpa using this
  have hdig : digitsAux n n = [0] :=
    map_digitChar_inj _ [0] (digitsAux_lt n n) (by intro d hd; simp at hd; omega)
      (by rw [hrev]; decide)
  have := ofDigits_digitsAux n n le_rfl
  rw [hdig] at this
  simp [ofDigits] at this
  omega

theorem natToken_inj (m n : Nat) (h : natToken m = natToken n) : m = n := by
  unfold natToken at h
  split at h <;> split at h
  · omega
  · exfalso
    rename_i hm hn
    have hd : (['0'] : List Char) = ((digitsAux n n).map digitChar).reverse :=
      congrArg String.data h
    exact natToken_pos_digits n (by omega) hd.symm
  · exfalso
    rename_i hm hn
    have hd : ((digitsAux m m).map digitChar).reverse = (['0'] : List Char) :=
      congrArg String.data h
    exact natToken_pos_digits m (by omega) hd
  · rename_i hm hn
    have hd : ((digitsAux m m).map digitChar).reverse =
        ((digitsAux n n).map digitChar).reverse := congrArg String.data h
    have hmap : (digitsAux m m).map digitChar = (digitsAux n n).map digitChar := by
      have := congrArg List.reverse hd
      simpa using this
    have hdig := map_digitChar_inj _ _ (digitsAux_lt m m) (digitsAux_lt n n) hmap
    have e1 := ofDigits_digitsAux m m le_rfl
    have e2 := ofDigits_digitsAux n n le_rfl
    rw [← e1, ← e2, hdig]

theorem natToken_ne_empty (n : Nat) : natToken n ≠ "" := by
  unfold natToken
  split
  · decide
  · intro h
    rename_i hn
    have hd : ((digitsAux n n).map digitChar).reverse = ([] : List Char) :=
      congrArg String.data h
    obtain ⟨k, rfl⟩ : ∃ k, n = k + 1 := ⟨n - 1, by omega⟩
    simp [digitsAux] at hd

/-! ## Claim C9: lemmas about the token map shape -/

theorem cleanMap_length : ∀ (vs : List String) (i : Nat),
    (cleanMap vs i).length = 2 * vs.length
  | [], _ => rfl
  | v :: vs, i => by
    simp only [cleanMap, List.length_cons, cleanMap_length vs (i + 1)]
    omega

theorem cleanMap_append_singleton :
    ∀ (vs : List String) (v : String) (i : Nat),
      cleanMap (vs ++ [v]) i =
        cleanMap vs i ++ [(v, natToken (i + vs.length)), (natToken (i + vs.length), v)]
  | [], v, i => by simp [cleanMap]
  | u :: vs, v, i => by
    have hrec := cleanMap_append_singleton vs v (i + 1)
    have hidx : i + 1 + vs.length = i + (vs.length + 1) := by omega
    rw [hidx] at hrec
    show (u, natToken i) :: (natToken i, u) :: cleanMap (vs ++ [v]) (i + 1) =
      (u, natToken i) :: (natToken i, u) ::
        (cleanMap vs (i + 1) ++
          [(v, natToken (i + (u :: vs).length)), (natToken (i + (u :: vs).length), v)])
    rw [hrec]
    simp only [List.length_cons]

theorem mapHasKey_append (m₁ m₂ : List (String × String)) (k : String) :
    mapHasKey (m₁ ++ m₂) k = (mapHasKey m₁ k || mapHasKey m₂ k) := by
  induction m₁ with
  | nil => simp [mapHasKey]
  | cons p m₁ ih =>
    simp only [List.cons_append, mapHasKey]
    split
    · simp
    · exact ih

theorem mapHasKey_eq_false_of_get_none (m : List (String × String)) (k : String)
    (h : mapGet m k = none) : mapHasKey m k = false := by
  induction m with
  | nil => rfl
  | cons p m ih =>
    simp only [mapGet] at h
    simp only [mapHasKey]
    split
    · rename_i hp; rw [if_pos hp] at h; exact absurd h (by simp)
    · rename_i hp; rw [if_neg hp] at h; exact ih h

/-- Lookup of the `j`-th value in a collision-free clean map. -/
theorem mapGet_cleanMap_value :
    ∀ (vs : List String) (i : Nat), vs.Nodup →
      (∀ v ∈ vs, ∀ j, i ≤ j → j < i + vs.length → v ≠ natToken j) →
      ∀ (j : Nat) (hj : j < vs.length),
        mapGet (cleanMap vs i) (vs[j]) = some (natToken (i + j))
  | [], _, _, _, j, hj => by simp at hj
  | v₀ :: vs, i, hnd, hfree, 0, hj => by
    simp [cleanMap, mapGet]
  | v₀ :: vs, i, hnd, hfree, j + 1, hj => by
    have hj' : j < vs.length := by simpa using hj
    have hgetc : (v₀ :: vs)[j + 1] = vs[j] := List.getElem_cons_succ v₀ vs j hj
    rw [hgetc]
    have hmem : vs[j] ∈ vs := List.getElem_mem hj'
    have hne0 : ¬ (v₀ = vs[j]) := by
      intro he
      exact (List.nodup_cons.mp hnd).1 (he ▸ hmem)
    have hnetok : ¬ (natToken i = vs[j]) := by
      intro he
      exact hfree vs[j] (List.mem_cons_of_mem _ hmem) i le_rfl
        (by simp only [List.length_cons]; omega) he.symm
    simp only [cleanMap, mapGet]
    rw [if_neg hne0, if_neg hnetok]
    have hrec := mapGet_cleanMap_value vs (i + 1) (List.nodup_cons.mp hnd).2
      (fun v hv j' hij' hjlt' => hfree v (List.mem_cons_of_mem _ hv) j' (by omega)
        (by simp only [List.length_cons]; omega))
      j hj'
    rw [hrec]
    have : i + 1 + j = i + (j + 1) := by omega
    rw [this]

/-- Lookup of the `j`-th token in a collision-free clean map. -/
theorem mapGet_cleanMap_token :
    ∀ (vs : List String) (i : Nat),
      (∀ v ∈ vs, ∀ j, i ≤ j → j < i + vs.length → v ≠ natToken j) →
      ∀ (j : Nat) (hj : j < vs.length),
        mapGet (cleanMap vs i) (natToken (i + j)) = some (vs[j])
  | [], _, _, j, hj => by simp at hj
  | v₀ :: vs, i, hfree, 0, hj => by
    have hne : ¬ (v₀ = natToken (i + 0)) :=
      hfree v₀ (by simp) (i + 0) (by omega) (by simp only [List.length_cons]; omega)
    simp only [cleanMap, mapGet]
    rw [if_neg hne, if_pos (by rw [Nat.add_zero])]
    simp
  | v₀ :: vs, i, hfree, j + 1, hj => by
    have hj' : j < vs.length := by simpa using hj
    have hne1 : ¬ (v₀ = natToken (i + (j + 1))) :=
      hfree v₀ (by simp) (i + (j + 1)) (by omega) (by simp only [List.length_cons]; omega)
    have hne2 : ¬ (natToken i = natToken (i + (j + 1))) := by
      intro he
      have := natToken_inj _ _ he
      omega
    simp only [cleanMap, mapGet]
    rw [if_neg hne1, if_neg hne2]
    have hrec := mapGet_cleanMap_token vs (i + 1)
      (fun v hv j' hij' hjlt' => hfree v (List.mem_cons_of_mem _ hv) j' (by omega)
        (by simp only [List.length_cons]; omega))
      j hj'
    have hidx : i + 1 + j = i + (j + 1) := by omega
    rw [hidx] at hrec
    rw [hrec, List.getElem_cons_succ]

/-- A key that is neither a stored value nor a token in range is absent. -/
theorem mapGet_cleanMap_none :
    ∀ (vs : List String) (i : Nat) (x : String), x ∉ vs →
      (∀ j, i ≤ j → j < i + vs.length → x ≠ natToken j) →
      mapGet (cleanMap vs i) x = none
  | [], _, _, _, _ => rfl
  | v₀ :: vs, i, x, hmem, htok => by
    have hne1 : ¬ (v₀ = x) := by
      intro he; exact hmem (he ▸ List.mem_cons_self v₀ vs)
    have hne2 : ¬ (natToken i = x) := by
      intro he
      exact htok i le_rfl (by simp only [List.length_cons]; omega) he.symm
    simp only [cleanMap, mapGet]
    rw [if_neg hne1, if_neg hne2]
    exact mapGet_cleanMap_none vs (i + 1) x (fun h => hmem (List.mem_cons_of_mem _ h))
      (fun j hij hjlt => htok j (by omega) (by simp only [List.length_cons]; omega))

/-- Every successful lookup in a clean map is one of the two pair shapes. -/
theorem mapGet_cleanMap_cases :
    ∀ (vs : List String) (i : Nat) (x t : String),
      mapGet (cleanMap vs i) x = some t →
      ∃ j, ∃ hj : j < vs.length,
        (x = vs[j] ∧ t = natToken (i + j)) ∨ (x = natToken (i + j) ∧ t = vs[j])
  | [], i, x, t, h => by simp [cleanMap, mapGet] at h
  | v₀ :: vs, i, x, t, h => by
    simp only [cleanMap, mapGet] at h
    by_cases h1 : v₀ = x
    · rw [if_pos h1] at h
      refine ⟨0, by simp, Or.inl ⟨h1.symm, ?_⟩⟩
      simp only [Option.some.injEq] at h
      rw [← h, Nat.add_zero]
    · rw [if_neg h1] at h
      by_cases h2 : natToken i = x
      · rw [if_pos h2] at h
        refine ⟨0, by simp, Or.inr ⟨by rw [← h2, Nat.add_zero], ?_⟩⟩
        simp only [Option.some.injEq] at h
        simp [← h]
      · rw [if_neg h2] at h
        obtain ⟨j, hj, hc⟩ := mapGet_cleanMap_cases vs (i + 1) x t h
        refine ⟨j + 1, by simpa using hj, ?_⟩
        have hidx : i + 1 + j = i + (j + 1) := by omega
        rw [hidx] at hc
        simpa [List.getElem_cons_succ] using hc

/-! ## Claim C9: the token-assignment pass on collision-free values -/

/-- An already-assigned value is skipped by the `forEach` body. -/
theorem assignToken_mem (vs : List String) (hnd : vs.Nodup)
    (hfree : ∀ v ∈ vs, ∀ j, j < vs.length → v ≠ natToken j)
    (v : String) (hv : v ∈ vs) :
    assignToken (cleanMap vs 0) v = cleanMap vs 0 := by
  obtain ⟨j, hj, rfl⟩ := List.mem_iff_getElem.mp hv
  have hget := mapGet_cleanMap_value vs 0 hnd
    (fun x hx j' h0 hlt => hfree x hx j' (by omega)) j hj
  unfold assignToken
  rw [if_pos]
  unfold mapGetTruthy
  rw [Nat.zero_add] at hget
  rw [hget]
  simp [natToken_ne_empty j]

/-- A fresh, token-free value gets the next token pair appended. -/
theorem assignToken_fresh (vs : List String) (v : String)
    (hvnot : v ∉ vs)
    (hvtok : ∀ j, j ≤ vs.length → v ≠ natToken j)
    (hvstok : ∀ x ∈ vs, x ≠ natToken vs.length) :
    assignToken (cleanMap vs 0) v = cleanMap (vs ++ [v]) 0 := by
  have hget : mapGet (cleanMap vs 0) v = none :=
    mapGet_cleanMap_none vs 0 v hvnot (fun j h0 hlt => hvtok j (by omega))
  have htruthy : mapGetTruthy (cleanMap vs 0) v = false := by
    unfold mapGetTruthy
    rw [hget]
  have hlen : (cleanMap vs 0).length / 2 = vs.length := by
    have := cleanMap_length vs 0
    omega
  have hkey1 : mapHasKey (cleanMap vs 0) v = false :=
    mapHasKey_eq_false_of_get_none _ _ hget
  have hkey2 : mapHasKey (cleanMap vs 0) (natToken vs.length) = false := by
    refine mapHasKey_eq_false_of_get_none _ _ (mapGet_cleanMap_none vs 0 _ ?_ ?_)
    · intro hmem
      exact hvstok _ hmem rfl
    · intro j h0 hlt he
      have := natToken_inj _ _ he
      omega
  unfold assignToken
  rw [htruthy]
  simp only [Bool.false_eq_true, if_false, hlen]
  unfold mapSet
  rw [hkey1]
  simp only [Bool.false_eq_true, if_false]
  rw [mapHasKey_append, hkey2]
  have hkey3 : mapHasKey [(v, natToken vs.length)] (natToken vs.length) = false := by
    simp only [mapHasKey]
    rw [if_neg (fun he => hvtok vs.length le_rfl he)]
  rw [hkey3]
  simp only [Bool.or_self, Bool.false_eq_true, if_false]
  rw [List.append_assoc, cleanMap_append_singleton, Nat.zero_add]
  rfl

/-- The `forEach` pass leaves an up-to-date clean map unchanged. -/
theorem foldl_assignToken_mem (vs : List String) (hnd : vs.Nodup)
    (hfree : ∀ v ∈ vs, ∀ j, j < vs.length → v ≠ natToken j) :
    ∀ (l : List String), (∀ v ∈ l, v ∈ vs) →
      List.foldl assignToken (cleanMap vs 0) l = cleanMap vs 0
  | [], _ => rfl
  | v :: l, h => by
    simp only [List.foldl_cons,
      assignToken_mem vs hnd hfree v (h v (List.mem_cons_self v l))]
    exact foldl_assignToken_mem vs hnd hfree l (fun x hx => h x (List.mem_cons_of_mem v hx))

/-- The `forEach` pass extends a clean map over the fresh suffix. -/
theorem foldl_assignToken_fresh :
    ∀ (w u : List String), (u ++ w).Nodup →
      (∀ v ∈ u ++ w, ∀ j, j < (u ++ w).length → v ≠ natToken j) →
      List.foldl assignToken (cleanMap u 0) w = cleanMap (u ++ w) 0
  | [], u, _, _ => by simp
  | v :: w, u, hnd, hfree => by
    have hlt : u.length < (u ++ v :: w).length := by
      simp only [List.length_append, List.length_cons]; omega
    have hvmem : v ∈ u ++ v :: w := by simp
    have hstep : assignToken (cleanMap u 0) v = cleanMap (u ++ [v]) 0 := by
      apply assignToken_fresh
      · intro hvu
        obtain ⟨-, -, hdisj⟩ := List.nodup_append.mp hnd
        exact hdisj hvu (List.mem_cons_self v w)
      · intro j hj
        exact hfree v hvmem j (by omega)
      · intro x hx
        exact hfree x (List.mem_append_left _ hx) u.length hlt
    simp only [List.foldl_cons, hstep]
    have hshape : (u ++ [v]) ++ w = u ++ v :: w := by simp
    have hrec := foldl_assignToken_fresh w (u ++ [v])
      (by rw [hshape]; exact hnd)
      (by rw [hshape]; exact hfree)
    rw [hshape] at hrec
    exact hrec

/-- The full `forEach` pass over the accumulated value set: the already
assigned prefix is skipped, the fresh suffix is appended. -/
theorem foldl_assignToken_full (u w : List String) (hnd : (u ++ w).Nodup)
    (hfree : ∀ v ∈ u ++ w, ∀ j, j < (u ++ w).length → v ≠ natToken j) :
    List.foldl assignToken (cleanMap u 0) (u ++ w) = cleanMap (u ++ w) 0 := by
  rw [List.foldl_append]
  have hndu : u.Nodup := (List.nodup_append.mp hnd).1
  have hlen : u.length ≤ (u ++ w).length := by simp
  rw [foldl_assignToken_mem u hndu
    (fun v hv j hj => hfree v (List.mem_append_left _ hv) j (by omega))
    u (fun v hv => hv)]
  exact foldl_assignToken_fresh w u hnd hfree

/-! ## Claim C9: the row recursion -/

theorem getTransactionsAux_values :
    ∀ (data : List (List String)) (vs : List String) (m : List (String × String)),
      (getTransactionsAux data vs m).1 = valuesAfter data vs
  | [], _, _ => rfl
  | row :: rest, vs, m => by
    simp only [getTransactionsAux, valuesAfter]
    exact getTransactionsAux_values rest _ _

theorem insertValue_extends : ∀ (row : List String) (vs : List String),
    ∃ w, row.foldl insertValue vs = vs ++ w
  | [], vs => ⟨[], by simp⟩
  | v :: row, vs => by
    by_cases hv : v ∈ vs
    · have h1 : insertValue vs v = vs := by unfold insertValue; rw [if_pos hv]
      simp only [List.foldl_cons, h1]
      exact insertValue_extends row vs
    · have h1 : insertValue vs v = vs ++ [v] := by unfold insertValue; rw [if_neg hv]
      simp only [List.foldl_cons, h1]
      obtain ⟨w, hw⟩ := insertValue_extends row (vs ++ [v])
      exact ⟨[v] ++ w, by rw [hw, List.append_assoc]⟩

theorem valuesAfter_extends : ∀ (data : List (List String)) (vs : List String),
    ∃ w, valuesAfter data vs = vs ++ w
  | [], vs => ⟨[], by simp [valuesAfter]⟩
  | row :: rest, vs => by
    obtain ⟨w1, hw1⟩ := insertValue_extends row vs
    obtain ⟨w2, hw2⟩ := valuesAfter_extends rest (row.foldl insertValue vs)
    exact ⟨w1 ++ w2, by
      simp only [valuesAfter]
      rw [hw2, hw1, List.append_assoc]⟩

theorem insertValue_nodup (vs : List String) (v : String) (hnd : vs.Nodup) :
    (insertValue vs v).Nodup := by
  unfold insertValue
  split
  · exact hnd
  · rename_i hv
    rw [List.nodup_append]
    exact ⟨hnd, List.nodup_singleton v, fun x hx hx1 => hv ((List.mem_singleton.mp hx1) ▸ hx)⟩

theorem foldl_insertValue_nodup :
    ∀ (row : List String) (vs : List String), vs.Nodup → (row.foldl insertValue vs).Nodup
  | [], _, hnd => hnd
  | v :: row, vs, hnd =>
    foldl_insertValue_nodup row (insertValue vs v) (insertValue_nodup vs v hnd)

theorem valuesAfter_nodup :
    ∀ (data : List (List String)) (vs : List String), vs.Nodup → (valuesAfter data vs).Nodup
  | [], _, hnd => hnd
  | row :: rest, vs, hnd =>
    valuesAfter_nodup rest _ (foldl_insertValue_nodup row vs hnd)

/-- Main invariant: starting from a clean map of the values seen so far, the
row recursion of `getTransactions` ends with the clean map of all values seen
— provided the final value set is collision-free. -/
theorem getTransactionsAux_map :
    ∀ (data : List (List String)) (vs : List String),
      (valuesAfter data vs).Nodup →
      (∀ v ∈ valuesAfter data vs, ∀ j, j < (valuesAfter data vs).length → v ≠ natToken j) →
      (getTransactionsAux data vs (cleanMap vs 0)).2.1 = cleanMap (valuesAfter data vs) 0
  | [], vs, _, _ => rfl
  | row :: rest, vs, hndF, hfreeF => by
    obtain ⟨w, hw⟩ := insertValue_extends row vs
    obtain ⟨w', hw'⟩ := valuesAfter_extends rest (row.foldl insertValue vs)
    have hvaf : valuesAfter (row :: rest) vs = valuesAfter rest (row.foldl insertValue vs) := rfl
    have hndv : (row.foldl insertValue vs).Nodup := by
      have := hndF
      rw [hvaf, hw'] at this
      exact (List.nodup_append.mp this).1
    have hfreev : ∀ v ∈ row.foldl insertValue vs, ∀ j,
        j < (row.foldl insertValue vs).length → v ≠ natToken j := by
      intro v hv j hj
      refine hfreeF v ?_ j ?_
      · rw [hvaf, hw']; exact List.mem_append_left _ hv
      · rw [hvaf, hw']; simp only [List.length_append]; omega
    have hmap : List.foldl assignToken (cleanMap vs 0) (row.foldl insertValue vs)
        = cleanMap (row.foldl insertValue vs) 0 := by
      rw [hw]
      rw [hw] at hndv hfreev
      exact foldl_assignToken_full vs w hndv hfreev
    have hrec := getTransactionsAux_map rest (row.foldl insertValue vs)
      (by rw [← hvaf]; exact hndF) (by rw [← hvaf]; exact hfreeF)
    simp only [getTransactionsAux]
    rw [hmap]
    exact hrec

/-! ## Claim C9: the claimed round-trip, its failure, and the amended form -/

/-- Counterexample to C9 as stated.  On the dataset `[["1","B","C"]]` the
token↔value map does not round-trip: the raw cell value `"B"` is mapped to
the token `"1"`, but looking up `"1"` returns `"C"` — the reverse entry was
overwritten because the raw cell value `"1"` collides with an assigned token
key. -/
theorem claim_C9_counterexample :
    ¬ (∀ (data : List (List String)), ∀ v t,
        mapGet (getTransactions data {}).valuesMap v = some t →
        mapGet (getTransactions data {}).valuesMap t = some v) := by
  intro h
  have h1 : mapGet (getTransactions [["1", "B", "C"]] {}).valuesMap "B" = some "1" := by
    decide
  have h2 := h [["1", "B", "C"]] "B" "1" h1
  have h3 : mapGet (getTransactions [["1", "B", "C"]] {}).valuesMap "1" = some "C" := by
    decide
  rw [h2] at h3
  exact absurd h3 (by decide)

/-- C9 amended.  Provided no raw cell value of the dataset is itself the
decimal representation of a natural number below the number of distinct
values (so raw values never collide with assigned token keys), the
`valuesMap` of `getTransactions` round-trips in both directions: whenever
looking up `v` yields `t`, looking up `t` yields `v` back. -/
theorem claim_C9_amended (data : List (List String))
    (hfree : ∀ v ∈ (getTransactions data {}).values, ∀ j,
      j < (getTransactions data {}).values.length → v ≠ natToken j) :
    ∀ v t, mapGet (getTransactions data {}).valuesMap v = some t →
      mapGet (getTransactions data {}).valuesMap t = some v := by
  have hvals : (getTransactions data {}).values = valuesAfter data [] :=
    getTransactionsAux_values data [] []
  have hnd : (valuesAfter data []).Nodup := valuesAfter_nodup data [] List.nodup_nil
  have hfree' : ∀ v ∈ valuesAfter data [], ∀ j,
      j < (valuesAfter data []).length → v ≠ natToken j := by
    rw [← hvals]
    exact hfree
  have hmap : (getTransactions data {}).valuesMap = cleanMap (valuesAfter data []) 0 :=
    getTransactionsAux_map data [] hnd hfree'
  rw [hmap]
  intro v t h
  obtain ⟨j, hj, hc⟩ := mapGet_cleanMap_cases _ 0 v t h
  rcases hc with ⟨rfl, rfl⟩ | ⟨rfl, rfl⟩
  · exact mapGet_cleanMap_token _ 0
      (fun x hx j' h0 hlt => hfree' x hx j' (by omega)) j hj
  · exact mapGet_cleanMap_value _ 0 hnd
      (fun x hx j' h0 hlt => hfree' x hx j' (by omega)) j hj

/-- Witness for the amended C9 on a collision-free dataset: `"A"` is mapped
to the token `"0"`, and looking the token up returns `"A"`. -/
theorem claim_C9_amended_witness :
    mapGet (getTransactions [["A", "B"], ["C"]] {}).valuesMap "0" = some "A" :=
  claim_C9_amended [["A", "B"], ["C"]] (by decide) "A" "0" (by decide)
